import Mathlib

/-!
Verification of the SAFER-like block cipher in `safer_cipher.py`.

Byte strings are modelled as `List Nat` with every entry `< 256`; Python's
`x & 0xFF` is rendered as `x % 256`.  Text strings crossing the API boundary
are represented by their UTF-8 byte sequences (UTF-8 encoding is injective,
so equality of byte sequences coincides with equality of strings).  Fallible
operations (Python `raise ValueError`) return `Except CipherError`.
-/

namespace Safer

/-- Error kinds of the cipher engine (spec section 7 taxonomy). -/
inductive CipherError where
  | invalidKeyLength
  | invalidBlockLength
  | ciphertextTooShort
  | invalidPadding
  | invalidEncoding
  deriving DecidableEq, Repr

/-- Every entry of the list is a byte value. -/
def allLt256 (l : List Nat) : Prop := ∀ b ∈ l, b < 256

instance (l : List Nat) : Decidable (allLt256 l) := by
  unfold allLt256; infer_instance

instance exceptDecEq {ε α : Type} [DecidableEq ε] [DecidableEq α] :
    DecidableEq (Except ε α)
  | .ok x, .ok y =>
    match decEq x y with
    | .isTrue h => .isTrue (h ▸ rfl)
    | .isFalse h => .isFalse (fun hc => h (Except.ok.inj hc))
  | .error e, .error f =>
    match decEq e f with
    | .isTrue h => .isTrue (h ▸ rfl)
    | .isFalse h => .isFalse (fun hc => h (Except.error.inj hc))
  | .ok _, .error _ => .isFalse (fun hc => Except.noConfusion hc)
  | .error _, .ok _ => .isFalse (fun hc => Except.noConfusion hc)

/-- BLOCK_SIZE = 8 (64 bits). -/
def BLOCK_SIZE : Nat := 8

/-- ROUNDS = 10, the default round count. -/
def ROUNDS : Nat := 10

/-- One entry of the exp table: `pow(45, i, 257)`, with the value 256 folded
to 0, as in `_init_tables`. -/
def expEntry (i : Nat) : Nat :=
  let y := 45 ^ i % 257
  if y = 256 then 0 else y

/-- The `_EXP` table of `_init_tables`: 256 entries `expEntry i`. -/
def _EXP : List Nat := (List.range 256).map expEntry

/-- The `_LOG` table of `_init_tables`: for each `i` with `_EXP[i] ≠ 0`,
position `_EXP[i]` holds `i & 0xFF`; finally position 0 is set to 128. -/
def _LOG : List Nat :=
  (((List.range 256).foldl
      (fun t i =>
        let x := expEntry i
        if x = 0 then t else t.set x (i % 256))
      (List.replicate 256 0)).set 0 128)

/-- Function `_sbox_exp`: lookup in the `_EXP` table at `x & 0xFF`. -/
def _sbox_exp (x : Nat) : Nat := _EXP.getD (x % 256) 0

/-- Function `_sbox_log`: lookup in the `_LOG` table at `x & 0xFF`. -/
def _sbox_log (x : Nat) : Nat := _LOG.getD (x % 256) 0

set_option maxRecDepth 100000

/-- Function `_derive_key`: UTF-8 bytes of the passphrase, zero-padded on the right to
16 bytes when shorter, truncated to the first 16 bytes when longer. -/
def _derive_key (key_str : List Nat) : List Nat :=
  if key_str.length < 16 then key_str ++ List.replicate (16 - key_str.length) 0
  else key_str.take 16

/-- Function `_rotate_byte_left6`: circular left shift of a byte by 6 bits. -/
def _rotate_byte_left6 (b : Nat) : Nat :=
  ((b % 256) <<< 6) % 256 ||| (b % 256) >>> 2

/-- The subkey-emitting loop of `_generate_round_keys`: emit the first 8 bytes
of the state, then rotate every state byte left by 6 bits, `rounds` times. -/
def roundKeysAux : List Nat → Nat → List (List Nat)
  | _, 0 => []
  | state, n + 1 => state.take 8 :: roundKeysAux (state.map _rotate_byte_left6) n

/-- Function `_generate_round_keys`: fails unless the master key is 16 bytes, then runs
the subkey loop. -/
def _generate_round_keys (master : List Nat) (rounds : Nat) :
    Except CipherError (List (List Nat)) :=
  if master.length ≠ 16 then .error .invalidKeyLength
  else .ok (roundKeysAux master rounds)

/-- Bytewise XOR of two byte strings (Python `bytes(b ^ p for b, p in zip(..))`,
no masking). -/
def zipXor (a b : List Nat) : List Nat := List.zipWith (fun x y => x ^^^ y) a b

/-- Bytewise XOR followed by `& 0xFF` (Python `(l ^ f) & 0xFF`). -/
def zipXor256 (a b : List Nat) : List Nat :=
  List.zipWith (fun x y => (x ^^^ y) % 256) a b

/-- Function `_split_block`: fails unless the block is 8 bytes, else splits 4/4. -/
def _split_block (block : List Nat) : Except CipherError (List Nat × List Nat) :=
  if block.length ≠ BLOCK_SIZE then .error .invalidBlockLength
  else .ok (block.take 4, block.drop 4)

/-- Function `_join_block`: concatenation of the halves. -/
def _join_block (left right : List Nat) : List Nat := left ++ right

/-- The round function `_F`: check lengths, XOR with the subkey, apply the
exp table at even positions and the log table at odd positions, then the
PHT-style linear mix. -/
def _F (right rk : List Nat) : Except CipherError (List Nat) :=
  if right.length ≠ 4 then .error .invalidBlockLength
  else if rk.length < 4 then .error .invalidKeyLength
  else
    let x := (List.range 4).map fun i => (right.getD i 0 ^^^ rk.getD i 0) % 256
    let s := x.mapIdx fun i v => if i % 2 = 0 then _sbox_exp v else _sbox_log v
    let y0 := (2 * s.getD 0 0 + s.getD 1 0) % 256
    let y1 := (s.getD 0 0 + s.getD 1 0) % 256
    let y2 := (2 * s.getD 2 0 + s.getD 3 0) % 256
    let y3 := (s.getD 2 0 + s.getD 3 0) % 256
    .ok [y0, y1, y2, y3]

/-- The Feistel loop of `encrypt_block`:
`left, right = right, xor256 left (F right rk[:4])` for each round key. -/
def encryptRounds : List Nat → List Nat → List (List Nat) →
    Except CipherError (List Nat × List Nat)
  | l, r, [] => .ok (l, r)
  | l, r, rk :: ks => do
      let f ← _F r (rk.take 4)
      encryptRounds r (zipXor256 l f) ks

/-- Function `encrypt_block`: check the block length, split, run the rounds in schedule
order, join. -/
def encrypt_block (block : List Nat) (round_keys : List (List Nat)) :
    Except CipherError (List Nat) :=
  if block.length ≠ BLOCK_SIZE then .error .invalidBlockLength
  else do
    let (l, r) ← _split_block block
    let (l₂, r₂) ← encryptRounds l r round_keys
    .ok (_join_block l₂ r₂)

/-- The Feistel loop of `decrypt_block`:
`left, right = xor256 right (F left rk[:4]), left` for each round key. -/
def decryptRounds : List Nat → List Nat → List (List Nat) →
    Except CipherError (List Nat × List Nat)
  | l, r, [] => .ok (l, r)
  | l, r, rk :: ks => do
      let f ← _F l (rk.take 4)
      decryptRounds (zipXor256 r f) l ks

/-- Function `decrypt_block`: check the block length, split, run the rounds in reverse
schedule order, join. -/
def decrypt_block (block : List Nat) (round_keys : List (List Nat)) :
    Except CipherError (List Nat) :=
  if block.length ≠ BLOCK_SIZE then .error .invalidBlockLength
  else do
    let (l, r) ← _split_block block
    let (l₂, r₂) ← decryptRounds l r round_keys.reverse
    .ok (_join_block l₂ r₂)

/-- Function `_pkcs7_pad`: append `pad_len` copies of the byte `pad_len`, where
`pad_len = block_size - len(data) % block_size`, replaced by `block_size`
when that is 0. -/
def _pkcs7_pad (data : List Nat) (block_size : Nat) : List Nat :=
  let p := block_size - data.length % block_size
  let pad_len := if p = 0 then block_size else p
  data ++ List.replicate pad_len pad_len

/-- Function `_pkcs7_unpad`: reject empty or non-multiple-of-block-size data, read the
final byte as the pad length, check it lies in `[1, block_size]` and that the
final `pad_len` bytes all equal `pad_len`, then strip them. -/
def _pkcs7_unpad (data : List Nat) (block_size : Nat) :
    Except CipherError (List Nat) :=
  if data = [] ∨ data.length % block_size ≠ 0 then .error .invalidPadding
  else
    let pad_len := data.getLastD 0
    if pad_len < 1 ∨ pad_len > block_size then .error .invalidPadding
    else if data.drop (data.length - pad_len) ≠ List.replicate pad_len pad_len then
      .error .invalidPadding
    else .ok (data.take (data.length - pad_len))

/-- Function `_derive_iv`: the first 8 key bytes, each XORed with `0xA5`. -/
def _derive_iv (key : List Nat) : List Nat :=
  (key.take BLOCK_SIZE).map fun b => (b ^^^ 0xA5) % 256

/-- Fuel-driven helper for `toChunks`; the fuel is at least the list length
on every intended call, so the `0` case is never reached there. -/
def toChunksGo : Nat → List Nat → List (List Nat)
  | 0, _ => []
  | _, [] => []
  | fuel + 1, a :: t =>
      (a :: t).take BLOCK_SIZE :: toChunksGo fuel ((a :: t).drop BLOCK_SIZE)

/-- The chunking loop `for i in range(0, len(data), BLOCK_SIZE)`:
successive 8-byte slices (the last possibly shorter). -/
def toChunks (l : List Nat) : List (List Nat) := toChunksGo l.length l

/-- The CBC encryption loop of `encrypt_message`: XOR each plaintext block
with the previous ciphertext block (initially the IV), encrypt, chain. -/
def cbcEncrypt (round_keys : List (List Nat)) :
    List Nat → List (List Nat) → Except CipherError (List (List Nat))
  | _, [] => .ok []
  | prev, block :: rest => do
      let cblock ← encrypt_block (zipXor block prev) round_keys
      let cs ← cbcEncrypt round_keys cblock rest
      .ok (cblock :: cs)

/-- The CBC decryption loop of `decrypt_message`: decrypt each ciphertext
block, XOR with the previous ciphertext block (initially the IV), chain on
the ciphertext block. -/
def cbcDecrypt (round_keys : List (List Nat)) :
    List Nat → List (List Nat) → Except CipherError (List (List Nat))
  | _, [] => .ok []
  | prev, block :: rest => do
      let dblock ← decrypt_block block round_keys
      let ps ← cbcDecrypt round_keys block rest
      .ok (zipXor dblock prev :: ps)

/-- Function `encrypt_message` up to (but not including) the base64 encoding: derive
the key and IV, build the schedule, pad, CBC-encrypt, prepend the IV. -/
def encrypt_message_raw (plaintext key_str : List Nat) (rounds : Nat) :
    Except CipherError (List Nat) := do
  let master := _derive_key key_str
  let round_keys ← _generate_round_keys master rounds
  let iv := _derive_iv master
  let data := _pkcs7_pad plaintext BLOCK_SIZE
  let chunks ← cbcEncrypt round_keys iv (toChunks data)
  .ok (iv ++ chunks.flatten)

/-- Function `decrypt_message` after the base64 decoding and before the UTF-8
decoding: length check, split IV and ciphertext, derive key and schedule,
CBC-decrypt, unpad. -/
def decrypt_message_raw (raw key_str : List Nat) (rounds : Nat) :
    Except CipherError (List Nat) :=
  if raw.length < BLOCK_SIZE then .error .ciphertextTooShort
  else do
    let iv := raw.take BLOCK_SIZE
    let cipher := raw.drop BLOCK_SIZE
    let master := _derive_key key_str
    let round_keys ← _generate_round_keys master rounds
    let ps ← cbcDecrypt round_keys iv (toChunks cipher)
    _pkcs7_unpad ps.flatten BLOCK_SIZE

/-- The standard base64 alphabet used by `base64.b64encode`. -/
def b64Alphabet : List Char :=
  "ABCDEFGHIJKLMNOPQRSTUVWXYZabcdefghijklmnopqrstuvwxyz0123456789+/".toList

/-- The base64 character of a sextet. -/
def sextetChar (n : Nat) : Char := b64Alphabet.getD (n % 64) 'A'

/-- The sextet of a base64 character, `none` for characters outside the
alphabet. -/
def sextetOfChar (c : Char) : Option Nat :=
  let i := b64Alphabet.indexOf c
  if i < 64 then some i else none

/-- Standard base64 encoding of a byte string (`base64.b64encode`): each
3-byte group becomes 4 sextet characters; a trailing group of 1 or 2 bytes is
completed with `=` padding. -/
def b64encode : List Nat → List Char
  | [] => []
  | [a] => [sextetChar (a / 4), sextetChar (a % 4 * 16), '=', '=']
  | [a, b] => [sextetChar (a / 4), sextetChar (a % 4 * 16 + b / 16),
               sextetChar (b % 16 * 4), '=']
  | a :: b :: c :: rest =>
      sextetChar (a / 4) :: sextetChar (a % 4 * 16 + b / 16) ::
      sextetChar (b % 16 * 4 + c / 64) :: sextetChar (c % 64) :: b64encode rest

/-- Standard base64 decoding (`base64.b64decode` on well-formed input):
4-character groups decode to 3 bytes, with a final `=`-padded group decoding
to 1 or 2 bytes; anything else is rejected. -/
def b64decode : List Char → Option (List Nat)
  | [] => some []
  | w :: x :: y :: z :: rest =>
      match sextetOfChar w, sextetOfChar x with
      | some a, some b =>
        if y = '=' ∧ z = '=' ∧ rest = [] then some [a * 4 + b / 16]
        else
          match sextetOfChar y with
          | some c =>
            if z = '=' ∧ rest = [] then
              some [a * 4 + b / 16, b % 16 * 16 + c / 4]
            else
              match sextetOfChar z, b64decode rest with
              | some d, some tail =>
                  some ((a * 4 + b / 16) :: (b % 16 * 16 + c / 4) ::
                    (c % 4 * 64 + d) :: tail)
              | _, _ => none
          | none => none
      | _, _ => none
  | _ => none

/-- Function `encrypt_message`: the raw envelope, base64-encoded. -/
def encrypt_message (plaintext key_str : List Nat) (rounds : Nat) :
    Except CipherError (List Char) := do
  let raw ← encrypt_message_raw plaintext key_str rounds
  .ok (b64encode raw)

/-- Function `decrypt_message`: base64-decode, then the raw decryption pipeline. -/
def decrypt_message (ciphertext_b64 : List Char) (key_str : List Nat)
    (rounds : Nat) : Except CipherError (List Nat) :=
  match b64decode ciphertext_b64 with
  | none => .error .invalidEncoding
  | some raw => decrypt_message_raw raw key_str rounds

/-! Basic byte and list lemmas. -/

lemma mod256_lt (a : Nat) : a % 256 < 256 := Nat.mod_lt _ (by decide)

lemma allLt256_append {a b : List Nat} (ha : allLt256 a) (hb : allLt256 b) :
    allLt256 (a ++ b) := by
  intro x hx
  rcases List.mem_append.mp hx with h | h
  · exact ha x h
  · exact hb x h

lemma allLt256_take {l : List Nat} (h : allLt256 l) (n : Nat) :
    allLt256 (l.take n) := fun b hb => h b (List.mem_of_mem_take hb)

lemma allLt256_drop {l : List Nat} (h : allLt256 l) (n : Nat) :
    allLt256 (l.drop n) := fun b hb => h b (List.mem_of_mem_drop hb)

lemma allLt256_replicate {v n : Nat} (h : v < 256) :
    allLt256 (List.replicate n v) := by
  intro b hb
  rw [List.eq_of_mem_replicate hb]
  exact h

lemma length_zipXor (a b : List Nat) :
    (zipXor a b).length = min a.length b.length := List.length_zipWith ..

lemma length_zipXor256 (a b : List Nat) :
    (zipXor256 a b).length = min a.length b.length := List.length_zipWith ..

lemma allLt256_zipXor {a b : List Nat} (ha : allLt256 a) (hb : allLt256 b) :
    allLt256 (zipXor a b) := by
  induction a generalizing b with
  | nil => intro x hx; simp [zipXor] at hx
  | cons c t ih =>
    cases b with
    | nil => intro x hx; simp [zipXor] at hx
    | cons d u =>
      intro x hx
      rcases List.mem_cons.mp hx with h | h
      · subst h
        have hc : c < 256 := ha c (by simp)
        have hd : d < 256 := hb d (by simp)
        exact Nat.xor_lt_two_pow (n := 8) hc hd
      · exact ih (fun y hy => ha y (List.mem_cons_of_mem _ hy))
          (fun y hy => hb y (List.mem_cons_of_mem _ hy)) x h

lemma allLt256_zipXor256 (a b : List Nat) : allLt256 (zipXor256 a b) := by
  induction a generalizing b with
  | nil => intro x hx; simp [zipXor256] at hx
  | cons c t ih =>
    cases b with
    | nil => intro x hx; simp [zipXor256] at hx
    | cons d u =>
      intro x hx
      rcases List.mem_cons.mp hx with h | h
      · subst h; exact mod256_lt _
      · exact ih u x h

lemma zipXor_cancel : ∀ a b : List Nat, a.length = b.length →
    zipXor (zipXor a b) b = a := by
  intro a
  induction a with
  | nil => intro b _; simp [zipXor]
  | cons c t ih =>
    intro b hlen
    cases b with
    | nil => simp at hlen
    | cons d u =>
      simp only [List.length_cons] at hlen
      simp only [zipXor, List.zipWith_cons_cons]
      rw [Nat.xor_cancel_right]
      exact congrArg _ (ih u (by omega))

lemma zipXor256_cancel : ∀ a b : List Nat, a.length = b.length →
    allLt256 a → allLt256 b → zipXor256 (zipXor256 a b) b = a := by
  intro a
  induction a with
  | nil => intro b _ _ _; simp [zipXor256]
  | cons c t ih =>
    intro b hlen ha hb
    cases b with
    | nil => simp at hlen
    | cons d u =>
      have hc : c < 256 := ha c (by simp)
      have hd : d < 256 := hb d (by simp)
      simp only [List.length_cons] at hlen
      simp only [zipXor256, List.zipWith_cons_cons]
      have hx : c ^^^ d < 256 := Nat.xor_lt_two_pow (n := 8) hc hd
      rw [Nat.mod_eq_of_lt hx, Nat.xor_cancel_right, Nat.mod_eq_of_lt hc]
      exact congrArg _ (ih u (by omega) (fun y hy => ha y (List.mem_cons_of_mem _ hy))
        (fun y hy => hb y (List.mem_cons_of_mem _ hy)))

lemma zipXor_left_injective {a b p : List Nat} (hap : a.length = p.length)
    (hbp : b.length = p.length) (h : zipXor a p = zipXor b p) : a = b := by
  have := congrArg (fun l => zipXor l p) h
  simpa [zipXor_cancel a p hap, zipXor_cancel b p hbp] using this

/-! Round function lemmas. -/

lemma F_ok {r rk : List Nat} (hr : r.length = 4) (hk : 4 ≤ rk.length) :
    ∃ out, _F r rk = .ok out ∧ out.length = 4 ∧ allLt256 out := by
  unfold _F
  rw [if_neg (by omega), if_neg (by omega)]
  refine ⟨_, rfl, rfl, ?_⟩
  intro b hb
  simp only [List.mem_cons, List.not_mem_nil, or_false] at hb
  rcases hb with h | h | h | h <;> (subst h; exact mod256_lt _)

/-! Feistel round lemmas. -/

/-- A well-formed half-block: 4 bytes, each below 256. -/
def Half (l : List Nat) : Prop := l.length = 4 ∧ allLt256 l

lemma ok_bind {α β : Type} (a : α) (g : α → Except CipherError β) :
    (Except.ok a : Except CipherError α) >>= g = g a := rfl

lemma error_bind {α β : Type} (e : CipherError) (g : α → Except CipherError β) :
    (Except.error e : Except CipherError α) >>= g = Except.error e := rfl

lemma Half_zipXor256 {a : List Nat} (b : List Nat) (ha : a.length = 4)
    (hb : b.length = 4) : Half (zipXor256 a b) :=
  ⟨by rw [length_zipXor256]; omega, allLt256_zipXor256 a b⟩

lemma take4_length {k : List Nat} (h : 4 ≤ k.length) : (k.take 4).length = 4 := by
  rw [List.length_take]; omega

lemma decryptRounds_append : ∀ (xs ys : List (List Nat)) (l r : List Nat),
    decryptRounds l r (xs ++ ys) =
      (decryptRounds l r xs) >>= fun p => decryptRounds p.1 p.2 ys := by
  intro xs
  induction xs with
  | nil =>
    intro ys l r
    simp only [List.nil_append, decryptRounds, ok_bind]
  | cons k t ih =>
    intro ys l r
    simp only [List.cons_append, decryptRounds]
    cases hF : _F l (k.take 4) with
    | error e => rfl
    | ok f =>
      simp only [ok_bind, List.append_eq]
      rw [ih]

lemma encryptRounds_append : ∀ (xs ys : List (List Nat)) (l r : List Nat),
    encryptRounds l r (xs ++ ys) =
      (encryptRounds l r xs) >>= fun p => encryptRounds p.1 p.2 ys := by
  intro xs
  induction xs with
  | nil =>
    intro ys l r
    simp only [List.nil_append, encryptRounds, ok_bind]
  | cons k t ih =>
    intro ys l r
    simp only [List.cons_append, encryptRounds]
    cases hF : _F r (k.take 4) with
    | error e => rfl
    | ok f =>
      simp only [ok_bind, List.append_eq]
      rw [ih]

lemma encryptRounds_inverts : ∀ (ks : List (List Nat)) (l r l₂ r₂ : List Nat),
    Half l → Half r → (∀ rk ∈ ks, 4 ≤ rk.length) →
    encryptRounds l r ks = .ok (l₂, r₂) →
    decryptRounds l₂ r₂ ks.reverse = .ok (l, r) := by
  intro ks
  induction ks with
  | nil =>
    intro l r l₂ r₂ _ _ _ h
    simp only [encryptRounds, Except.ok.injEq, Prod.mk.injEq] at h
    simp only [List.reverse_nil, decryptRounds, h.1, h.2]
  | cons k t ih =>
    intro l r l₂ r₂ hl hr hks h
    have hk : 4 ≤ (k.take 4).length := by
      rw [take4_length (hks k (List.mem_cons_self _ _))]
    obtain ⟨f, hF, hflen, hfb⟩ := F_ok hr.1 hk
    simp only [encryptRounds] at h
    rw [hF, ok_bind] at h
    have hxl : Half (zipXor256 l f) := Half_zipXor256 f hl.1 hflen
    have ih' := ih r (zipXor256 l f) l₂ r₂ hr hxl
      (fun rk hrk => hks rk (List.mem_cons_of_mem _ hrk)) h
    rw [List.reverse_cons, decryptRounds_append, ih', ok_bind]
    simp only [decryptRounds]
    rw [hF, ok_bind]
    rw [zipXor256_cancel l f (hl.1.trans hflen.symm) hl.2 hfb]

lemma decryptRounds_inverts : ∀ (ks : List (List Nat)) (l r l₂ r₂ : List Nat),
    Half l → Half r → (∀ rk ∈ ks, 4 ≤ rk.length) →
    decryptRounds l r ks = .ok (l₂, r₂) →
    encryptRounds l₂ r₂ ks.reverse = .ok (l, r) := by
  intro ks
  induction ks with
  | nil =>
    intro l r l₂ r₂ _ _ _ h
    simp only [decryptRounds, Except.ok.injEq, Prod.mk.injEq] at h
    simp only [List.reverse_nil, encryptRounds, h.1, h.2]
  | cons k t ih =>
    intro l r l₂ r₂ hl hr hks h
    have hk : 4 ≤ (k.take 4).length := by
      rw [take4_length (hks k (List.mem_cons_self _ _))]
    obtain ⟨f, hF, hflen, hfb⟩ := F_ok hl.1 hk
    simp only [decryptRounds] at h
    rw [hF, ok_bind] at h
    have hxr : Half (zipXor256 r f) := Half_zipXor256 f hr.1 hflen
    have ih' := ih (zipXor256 r f) l l₂ r₂ hxr hl
      (fun rk hrk => hks rk (List.mem_cons_of_mem _ hrk)) h
    rw [List.reverse_cons, encryptRounds_append, ih', ok_bind]
    simp only [encryptRounds]
    rw [hF, ok_bind]
    rw [zipXor256_cancel r f (hr.1.trans hflen.symm) hr.2 hfb]

lemma encryptRounds_ok : ∀ (ks : List (List Nat)) (l r : List Nat),
    Half l → Half r → (∀ rk ∈ ks, 4 ≤ rk.length) →
    ∃ l₂ r₂, encryptRounds l r ks = .ok (l₂, r₂) ∧ Half l₂ ∧ Half r₂ := by
  intro ks
  induction ks with
  | nil =>
    intro l r hl hr _
    exact ⟨l, r, rfl, hl, hr⟩
  | cons k t ih =>
    intro l r hl hr hks
    have hk : 4 ≤ (k.take 4).length := by
      rw [take4_length (hks k (List.mem_cons_self _ _))]
    obtain ⟨f, hF, hflen, hfb⟩ := F_ok hr.1 hk
    obtain ⟨l₂, r₂, henc, hl₂, hr₂⟩ := ih r (zipXor256 l f) hr
      (Half_zipXor256 f hl.1 hflen) (fun rk hrk => hks rk (List.mem_cons_of_mem _ hrk))
    refine ⟨l₂, r₂, ?_, hl₂, hr₂⟩
    simp only [encryptRounds]
    rw [hF, ok_bind, henc]

lemma decryptRounds_ok : ∀ (ks : List (List Nat)) (l r : List Nat),
    Half l → Half r → (∀ rk ∈ ks, 4 ≤ rk.length) →
    ∃ l₂ r₂, decryptRounds l r ks = .ok (l₂, r₂) ∧ Half l₂ ∧ Half r₂ := by
  intro ks
  induction ks with
  | nil =>
    intro l r hl hr _
    exact ⟨l, r, rfl, hl, hr⟩
  | cons k t ih =>
    intro l r hl hr hks
    have hk : 4 ≤ (k.take 4).length := by
      rw [take4_length (hks k (List.mem_cons_self _ _))]
    obtain ⟨f, hF, hflen, hfb⟩ := F_ok hl.1 hk
    obtain ⟨l₂, r₂, hdec, hl₂, hr₂⟩ := ih (zipXor256 r f) l
      (Half_zipXor256 f hr.1 hflen) hl (fun rk hrk => hks rk (List.mem_cons_of_mem _ hrk))
    refine ⟨l₂, r₂, ?_, hl₂, hr₂⟩
    simp only [decryptRounds]
    rw [hF, ok_bind, hdec]

/-! Block-level lemmas. -/

/-- A well-formed 8-byte block. -/
def GoodBlock (l : List Nat) : Prop := l.length = 8 ∧ allLt256 l

lemma Half_take4 {block : List Nat} (h : GoodBlock block) : Half (block.take 4) :=
  ⟨by rw [List.length_take, h.1]; rfl, allLt256_take h.2 4⟩

lemma Half_drop4 {block : List Nat} (h : GoodBlock block) : Half (block.drop 4) :=
  ⟨by rw [List.length_drop, h.1], allLt256_drop h.2 4⟩

lemma GoodBlock_join {l r : List Nat} (hl : Half l) (hr : Half r) :
    GoodBlock (l ++ r) :=
  ⟨by rw [List.length_append, hl.1, hr.1], allLt256_append hl.2 hr.2⟩

lemma encrypt_block_ok {block : List Nat} {ks : List (List Nat)}
    (hb : GoodBlock block) (hks : ∀ rk ∈ ks, 4 ≤ rk.length) :
    ∃ c, encrypt_block block ks = .ok c ∧ GoodBlock c ∧
      decrypt_block c ks = .ok block := by
  obtain ⟨l₂, r₂, henc, hl₂, hr₂⟩ :=
    encryptRounds_ok ks (block.take 4) (block.drop 4) (Half_take4 hb) (Half_drop4 hb) hks
  have hdec := encryptRounds_inverts ks (block.take 4) (block.drop 4) l₂ r₂
    (Half_take4 hb) (Half_drop4 hb) hks henc
  refine ⟨l₂ ++ r₂, ?_, GoodBlock_join hl₂ hr₂, ?_⟩
  · unfold encrypt_block _split_block
    rw [if_neg (by rw [hb.1]; decide), if_neg (by rw [hb.1]; decide), ok_bind]
    simp only []
    rw [henc, ok_bind]
    simp only []
    rfl
  · unfold decrypt_block _split_block
    have hjlen : (l₂ ++ r₂).length = BLOCK_SIZE := (GoodBlock_join hl₂ hr₂).1
    rw [if_neg (by rw [hjlen]; decide), if_neg (by rw [hjlen]; decide), ok_bind]
    simp only []
    rw [List.take_left' hl₂.1, List.drop_left' hl₂.1, hdec, ok_bind]
    simp only []
    unfold _join_block
    rw [List.take_append_drop]

lemma decrypt_block_ok {block : List Nat} {ks : List (List Nat)}
    (hb : GoodBlock block) (hks : ∀ rk ∈ ks, 4 ≤ rk.length) :
    ∃ d, decrypt_block block ks = .ok d ∧ GoodBlock d ∧
      encrypt_block d ks = .ok block := by
  have hksr : ∀ rk ∈ ks.reverse, 4 ≤ rk.length := by
    intro rk hrk; exact hks rk (List.mem_reverse.mp hrk)
  obtain ⟨l₂, r₂, hdec, hl₂, hr₂⟩ :=
    decryptRounds_ok ks.reverse (block.take 4) (block.drop 4)
      (Half_take4 hb) (Half_drop4 hb) hksr
  have henc := decryptRounds_inverts ks.reverse (block.take 4) (block.drop 4) l₂ r₂
    (Half_take4 hb) (Half_drop4 hb) hksr hdec
  rw [List.reverse_reverse] at henc
  refine ⟨l₂ ++ r₂, ?_, GoodBlock_join hl₂ hr₂, ?_⟩
  · unfold decrypt_block _split_block
    rw [if_neg (by rw [hb.1]; decide), if_neg (by rw [hb.1]; decide), ok_bind]
    simp only []
    rw [hdec, ok_bind]
    simp only []
    rfl
  · unfold encrypt_block _split_block
    have hjlen : (l₂ ++ r₂).length = BLOCK_SIZE := (GoodBlock_join hl₂ hr₂).1
    rw [if_neg (by rw [hjlen]; decide), if_neg (by rw [hjlen]; decide), ok_bind]
    simp only []
    rw [List.take_left' hl₂.1, List.drop_left' hl₂.1, henc, ok_bind]
    simp only []
    unfold _join_block
    rw [List.take_append_drop]

lemma decrypt_block_injective {c c' d : List Nat} {ks : List (List Nat)}
    (hc : GoodBlock c) (hc' : GoodBlock c') (hks : ∀ rk ∈ ks, 4 ≤ rk.length)
    (h : decrypt_block c ks = .ok d) (h' : decrypt_block c' ks = .ok d) :
    c = c' := by
  obtain ⟨e, he, _, henc⟩ := decrypt_block_ok hc hks
  obtain ⟨e', he', _, henc'⟩ := decrypt_block_ok hc' hks
  rw [h] at he
  rw [h'] at he'
  injection he with he
  injection he' with he'
  subst he
  subst he'
  rw [henc] at henc'
  exact Except.ok.inj henc'

/-! CBC lemmas. -/

lemma GoodBlock_zipXor {b p : List Nat} (hb : GoodBlock b) (hp : GoodBlock p) :
    GoodBlock (zipXor b p) :=
  ⟨by rw [length_zipXor, hb.1, hp.1]; rfl, allLt256_zipXor hb.2 hp.2⟩

lemma cbcEncrypt_ok (ks : List (List Nat)) :
    ∀ (chunks : List (List Nat)) (prev : List Nat),
    (∀ c ∈ chunks, GoodBlock c) → GoodBlock prev →
    (∀ rk ∈ ks, 4 ≤ rk.length) →
    ∃ cs, cbcEncrypt ks prev chunks = .ok cs ∧ cs.length = chunks.length ∧
      (∀ c ∈ cs, GoodBlock c) ∧ cbcDecrypt ks prev cs = .ok chunks := by
  intro chunks
  induction chunks with
  | nil =>
    intro prev _ _ _
    exact ⟨[], rfl, rfl, by intro c hc; simp at hc, rfl⟩
  | cons b bs ih =>
    intro prev hchunks hprev hks
    have hb : GoodBlock b := hchunks b (List.mem_cons_self _ _)
    have hx : GoodBlock (zipXor b prev) := GoodBlock_zipXor hb hprev
    obtain ⟨c, henc, hcg, hdecb⟩ := encrypt_block_ok hx hks
    obtain ⟨cs, hencs, hlen, hcsg, hdecs⟩ :=
      ih c (fun q hq => hchunks q (List.mem_cons_of_mem _ hq)) hcg hks
    refine ⟨c :: cs, ?_, by simp [hlen], ?_, ?_⟩
    · simp only [cbcEncrypt]
      rw [henc, ok_bind, hencs, ok_bind]
    · intro q hq
      rcases List.mem_cons.mp hq with h | h
      · subst h; exact hcg
      · exact hcsg q h
    · simp only [cbcDecrypt]
      rw [hdecb, ok_bind, hdecs, ok_bind,
        zipXor_cancel b prev (hb.1.trans hprev.1.symm)]

lemma cbcDecrypt_length (ks : List (List Nat)) :
    ∀ (cs : List (List Nat)) (prev : List Nat) (ps : List (List Nat)),
    cbcDecrypt ks prev cs = .ok ps → ps.length = cs.length := by
  intro cs
  induction cs with
  | nil =>
    intro prev ps h
    simp only [cbcDecrypt, Except.ok.injEq] at h
    rw [← h]
  | cons c t ih =>
    intro prev ps h
    simp only [cbcDecrypt] at h
    cases hd : decrypt_block c ks with
    | error e => rw [hd, error_bind] at h; cases h
    | ok d =>
      rw [hd, ok_bind] at h
      cases hr : cbcDecrypt ks c t with
      | error e => rw [hr, error_bind] at h; cases h
      | ok ts =>
        rw [hr, ok_bind] at h
        injection h with h
        rw [← h]
        simp [ih c ts hr]

lemma cbcDecrypt_injective (ks : List (List Nat)) :
    ∀ (cs cs' : List (List Nat)) (prev : List Nat) (ps : List (List Nat)),
    (∀ c ∈ cs, GoodBlock c) → (∀ c ∈ cs', GoodBlock c) → GoodBlock prev →
    (∀ rk ∈ ks, 4 ≤ rk.length) →
    cbcDecrypt ks prev cs = .ok ps → cbcDecrypt ks prev cs' = .ok ps →
    cs = cs' := by
  intro cs
  induction cs with
  | nil =>
    intro cs' prev ps _ _ _ _ h h'
    have h0 : ps.length = 0 := cbcDecrypt_length ks [] prev ps h
    have h1 : ps.length = cs'.length := cbcDecrypt_length ks cs' prev ps h'
    cases cs' with
    | nil => rfl
    | cons c t => rw [h0] at h1; simp at h1
  | cons c t ih =>
    intro cs' prev ps hcs hcs' hprev hks h h'
    cases cs' with
    | nil =>
      have h0 : ps.length = 0 := cbcDecrypt_length ks [] prev ps h'
      have h1 : ps.length = (c :: t).length := cbcDecrypt_length ks (c :: t) prev ps h
      rw [h0] at h1; simp at h1
    | cons c' t' =>
      have hc : GoodBlock c := hcs c (List.mem_cons_self _ _)
      have hc' : GoodBlock c' := hcs' c' (List.mem_cons_self _ _)
      simp only [cbcDecrypt] at h h'
      cases hd : decrypt_block c ks with
      | error e => rw [hd, error_bind] at h; cases h
      | ok d =>
      cases hd' : decrypt_block c' ks with
      | error e => rw [hd', error_bind] at h'; cases h'
      | ok d' =>
      rw [hd, ok_bind] at h
      rw [hd', ok_bind] at h'
      cases hr : cbcDecrypt ks c t with
      | error e => rw [hr, error_bind] at h; cases h
      | ok ts =>
      cases hr' : cbcDecrypt ks c' t' with
      | error e => rw [hr', error_bind] at h'; cases h'
      | ok ts' =>
      rw [hr, ok_bind] at h
      rw [hr', ok_bind] at h'
      injection h with h
      injection h' with h'
      rw [← h'] at h
      injection h with hhead htail
      have hdg : GoodBlock d := by
        obtain ⟨e, he, heg, _⟩ := decrypt_block_ok hc hks
        rw [hd] at he
        injection he with he
        rw [he]; exact heg
      have hd'g : GoodBlock d' := by
        obtain ⟨e, he, heg, _⟩ := decrypt_block_ok hc' hks
        rw [hd'] at he
        injection he with he
        rw [he]; exact heg
      have hxdd : d = d' :=
        zipXor_left_injective (hdg.1.trans hprev.1.symm)
          (hd'g.1.trans hprev.1.symm) hhead
      rw [← hxdd] at hd'
      have hcc : c = c' := decrypt_block_injective hc hc' hks hd hd'
      rw [← hcc] at hr'
      have htt : t = t' := ih t' c ts
        (fun q hq => hcs q (List.mem_cons_of_mem _ hq))
        (fun q hq => hcs' q (List.mem_cons_of_mem _ hq))
        hc hks hr (by rw [hr', htail])
      rw [hcc, htt]

/-! Padding lemmas. -/

/-- The pad length actually used by `_pkcs7_pad` at block size 8. -/
def padLen (d : List Nat) : Nat := 8 - d.length % 8

lemma padLen_pos (d : List Nat) : 1 ≤ padLen d := by
  have := Nat.mod_lt d.length (y := 8) (by decide)
  unfold padLen; omega

lemma padLen_le (d : List Nat) : padLen d ≤ 8 := by
  unfold padLen; omega

lemma pad_eq (d : List Nat) :
    _pkcs7_pad d 8 = d ++ List.replicate (padLen d) (padLen d) := by
  have := Nat.mod_lt d.length (y := 8) (by decide)
  simp only [_pkcs7_pad, padLen]
  rw [if_neg (by omega)]

lemma pad_length (d : List Nat) :
    (_pkcs7_pad d 8).length = d.length + padLen d := by
  rw [pad_eq, List.length_append, List.length_replicate]

lemma pad_length_mod (d : List Nat) : (_pkcs7_pad d 8).length % 8 = 0 := by
  have := Nat.mod_lt d.length (y := 8) (by decide)
  rw [pad_length]; unfold padLen; omega

lemma allLt256_pad {d : List Nat} (hd : allLt256 d) : allLt256 (_pkcs7_pad d 8) := by
  rw [pad_eq]
  exact allLt256_append hd (allLt256_replicate (by have := padLen_le d; omega))

lemma getLastD_append_replicate (d : List Nat) (p : Nat) (hp : 1 ≤ p) :
    (d ++ List.replicate p p).getLastD 0 = p := by
  obtain ⟨q, hq⟩ : ∃ q, p = q + 1 := ⟨p - 1, by omega⟩
  rw [hq, List.replicate_succ' q (q + 1), ← List.append_assoc]
  simp

lemma unpad_pad (d : List Nat) : _pkcs7_unpad (_pkcs7_pad d 8) 8 = .ok d := by
  have hmod := Nat.mod_lt d.length (y := 8) (by decide)
  have hp1 := padLen_pos d
  have hp8 := padLen_le d
  rw [pad_eq]
  have hlen : (d ++ List.replicate (padLen d) (padLen d)).length
      = d.length + padLen d := by
    rw [List.length_append, List.length_replicate]
  simp only [_pkcs7_unpad]
  rw [if_neg, if_neg, if_neg]
  · rw [hlen, getLastD_append_replicate d _ hp1]
    have : d.length + padLen d - padLen d = d.length := by omega
    rw [this, List.take_left]
  · rw [getLastD_append_replicate d _ hp1, hlen]
    have : d.length + padLen d - padLen d = d.length := by omega
    rw [this, List.drop_left]
    simp
  · rw [getLastD_append_replicate d _ hp1]
    omega
  · intro h
    rcases h with h | h
    · have := congrArg List.length h
      rw [hlen] at this
      simp at this
      omega
    · rw [hlen] at h
      apply h
      unfold padLen
      omega

lemma unpad_ok_shape {data r : List Nat} (h : _pkcs7_unpad data 8 = .ok r) :
    ∃ p, 1 ≤ p ∧ p ≤ 8 ∧ data = r ++ List.replicate p p ∧
      r.length + p = data.length := by
  simp only [_pkcs7_unpad] at h
  by_cases h1 : data = [] ∨ data.length % 8 ≠ 0
  · rw [if_pos h1] at h; cases h
  rw [if_neg h1] at h
  by_cases h2 : data.getLastD 0 < 1 ∨ data.getLastD 0 > 8
  · rw [if_pos h2] at h; cases h
  rw [if_neg h2] at h
  by_cases h3 : data.drop (data.length - data.getLastD 0)
      ≠ List.replicate (data.getLastD 0) (data.getLastD 0)
  · rw [if_pos h3] at h; cases h
  rw [if_neg h3] at h
  push_neg at h1 h2 h3
  injection h with h
  have hdlen : 0 < data.length := List.length_pos.mpr h1.1
  refine ⟨data.getLastD 0, by omega, by omega, ?_, ?_⟩
  · rw [← h, ← h3, List.take_append_drop]
  · rw [← h, List.length_take]
    have hle : data.getLastD 0 ≤ data.length := by
      rcases Nat.lt_or_ge data.length (data.getLastD 0) with hx | hx
      · exfalso
        have hdrop : data.length - data.getLastD 0 = 0 := by omega
        rw [hdrop, List.drop_zero] at h3
        have := congrArg List.length h3
        rw [List.length_replicate] at this
        omega
      · exact hx
    omega

/-! Chunking lemmas. -/

lemma toChunksGo_congr : ∀ (n m : Nat) (l : List Nat), l.length ≤ n →
    l.length ≤ m → toChunksGo n l = toChunksGo m l := by
  intro n
  induction n with
  | zero =>
    intro m l hn _
    have hl : l = [] := List.length_eq_zero.mp (by omega)
    subst hl
    cases m <;> rfl
  | succ k ih =>
    intro m l hn hm
    cases l with
    | nil => cases m <;> rfl
    | cons a t =>
      cases m with
      | zero => simp at hm
      | succ m' =>
        simp only [toChunksGo]
        congr 1
        apply ih
        · rw [List.length_drop]
          simp only [List.length_cons, BLOCK_SIZE] at hn ⊢
          omega
        · rw [List.length_drop]
          simp only [List.length_cons, BLOCK_SIZE] at hm ⊢
          omega

lemma toChunks_eq (l : List Nat) :
    toChunks l = if l = [] then []
      else l.take BLOCK_SIZE :: toChunks (l.drop BLOCK_SIZE) := by
  cases l with
  | nil => rfl
  | cons a t =>
    rw [if_neg (by simp)]
    show toChunksGo (a :: t).length (a :: t) = _
    simp only [List.length_cons, toChunksGo]
    congr 1
    apply toChunksGo_congr
    · rw [List.length_drop]
      simp only [List.length_cons, BLOCK_SIZE]
      omega
    · exact le_refl _

lemma toChunks_nil : toChunks [] = [] := rfl

lemma flatten_toChunks_fuel : ∀ (n : Nat) (l : List Nat), l.length ≤ n →
    (toChunks l).flatten = l := by
  intro n
  induction n with
  | zero =>
    intro l hl
    have : l = [] := List.length_eq_zero.mp (by omega)
    rw [this, toChunks_nil]; rfl
  | succ m ih =>
    intro l hl
    by_cases hnil : l = []
    · rw [hnil, toChunks_nil]; rfl
    · rw [toChunks_eq, if_neg hnil]
      rw [List.flatten_cons]
      have hpos : 0 < l.length := List.length_pos.mpr hnil
      have : (l.drop BLOCK_SIZE).length ≤ m := by
        rw [List.length_drop]
        simp only [BLOCK_SIZE]
        omega
      rw [ih _ this, List.take_append_drop]

lemma flatten_toChunks (l : List Nat) : (toChunks l).flatten = l :=
  flatten_toChunks_fuel l.length l (le_refl _)

lemma toChunks_good_fuel : ∀ (n : Nat) (l : List Nat), l.length ≤ n →
    l.length % 8 = 0 → allLt256 l → ∀ c ∈ toChunks l, GoodBlock c := by
  intro n
  induction n with
  | zero =>
    intro l hl _ _ c hc
    have : l = [] := List.length_eq_zero.mp (by omega)
    rw [this, toChunks_nil] at hc
    cases hc
  | succ m ih =>
    intro l hl hmod hlt c hc
    by_cases hnil : l = []
    · rw [hnil, toChunks_nil] at hc; cases hc
    rw [toChunks_eq, if_neg hnil] at hc
    have hpos : 0 < l.length := List.length_pos.mpr hnil
    have h8 : 8 ≤ l.length := by omega
    rcases List.mem_cons.mp hc with h | h
    · subst h
      refine ⟨?_, allLt256_take hlt _⟩
      rw [List.length_take]
      simp only [BLOCK_SIZE]
      omega
    · refine ih (l.drop BLOCK_SIZE) ?_ ?_ (allLt256_drop hlt _) c h
      · rw [List.length_drop]; simp only [BLOCK_SIZE]; omega
      · rw [List.length_drop]; simp only [BLOCK_SIZE]; omega

lemma toChunks_flatten (cs : List (List Nat)) (h : ∀ c ∈ cs, c.length = 8) :
    toChunks cs.flatten = cs := by
  induction cs with
  | nil => rw [List.flatten_nil, toChunks_nil]
  | cons c t ih =>
    have hc : c.length = 8 := h c (List.mem_cons_self _ _)
    have hcnil : c ++ t.flatten ≠ [] := by
      intro hx
      have := congrArg List.length hx
      simp [hc] at this
    rw [List.flatten_cons, toChunks_eq, if_neg hcnil]
    have hc' : c.length = BLOCK_SIZE := hc
    rw [List.take_left' hc', List.drop_left' hc',
      ih (fun q hq => h q (List.mem_cons_of_mem _ hq))]

lemma flatten_length_const (cs : List (List Nat)) (h : ∀ c ∈ cs, c.length = 8) :
    cs.flatten.length = 8 * cs.length := by
  induction cs with
  | nil => simp
  | cons c t ih =>
    simp only [List.flatten_cons, List.length_append, List.length_cons,
      h c (List.mem_cons_self _ _), ih (fun q hq => h q (List.mem_cons_of_mem _ hq))]
    ring

lemma toChunks_ne_nil {l : List Nat} (h : l ≠ []) : toChunks l ≠ [] := by
  rw [toChunks_eq, if_neg h]
  simp

/-! Key, schedule and IV lemmas. -/

lemma derive_key_length (k : List Nat) : (_derive_key k).length = 16 := by
  unfold _derive_key
  by_cases h : k.length < 16
  · rw [if_pos h, List.length_append, List.length_replicate]; omega
  · rw [if_neg h, List.length_take]; omega

lemma allLt256_derive_key {k : List Nat} (h : allLt256 k) :
    allLt256 (_derive_key k) := by
  unfold _derive_key
  by_cases hl : k.length < 16
  · rw [if_pos hl]; exact allLt256_append h (allLt256_replicate (by decide))
  · rw [if_neg hl]; exact allLt256_take h _

lemma roundKeysAux_length : ∀ (R : Nat) (s : List Nat), 8 ≤ s.length →
    ∀ k ∈ roundKeysAux s R, k.length = 8 := by
  intro R
  induction R with
  | zero => intro s _ k hk; cases hk
  | succ m ih =>
    intro s hs k hk
    simp only [roundKeysAux] at hk
    rcases List.mem_cons.mp hk with h | h
    · subst h; rw [List.length_take]; omega
    · exact ih _ (by rw [List.length_map]; exact hs) k h

lemma generate_round_keys_eq {m : List Nat} (h : m.length = 16) (R : Nat) :
    _generate_round_keys m R = .ok (roundKeysAux m R) := by
  unfold _generate_round_keys
  rw [if_neg (by omega)]

lemma derive_iv_good {m : List Nat} (h : m.length = 16) :
    GoodBlock (_derive_iv m) := by
  constructor
  · unfold _derive_iv
    rw [List.length_map, List.length_take]
    simp only [BLOCK_SIZE]
    omega
  · intro b hb
    unfold _derive_iv at hb
    obtain ⟨a, _, rfl⟩ := List.mem_map.mp hb
    exact mod256_lt _

lemma allLt256_flatten {cs : List (List Nat)} (h : ∀ c ∈ cs, allLt256 c) :
    allLt256 cs.flatten := by
  intro b hb
  obtain ⟨c, hc, hbc⟩ := List.mem_flatten.mp hb
  exact h c hc b hbc

/-! Message-level lemmas. -/

lemma encrypt_message_raw_spec (pt key : List Nat) (R : Nat)
    (hpt : allLt256 pt) (hkey : allLt256 key) :
    ∃ cs, encrypt_message_raw pt key R
        = .ok (_derive_iv (_derive_key key) ++ cs.flatten) ∧
      cs.length = (toChunks (_pkcs7_pad pt 8)).length ∧
      (∀ c ∈ cs, GoodBlock c) ∧
      cbcDecrypt (roundKeysAux (_derive_key key) R) (_derive_iv (_derive_key key)) cs
        = .ok (toChunks (_pkcs7_pad pt 8)) := by
  have hm16 : (_derive_key key).length = 16 := derive_key_length key
  have hmb : allLt256 (_derive_key key) := allLt256_derive_key hkey
  have hks : ∀ rk ∈ roundKeysAux (_derive_key key) R, 4 ≤ rk.length := by
    intro rk hrk
    rw [roundKeysAux_length R _ (by omega) rk hrk]
    decide
  have hiv : GoodBlock (_derive_iv (_derive_key key)) := derive_iv_good hm16
  have hdata : allLt256 (_pkcs7_pad pt 8) := allLt256_pad hpt
  have hchunks : ∀ c ∈ toChunks (_pkcs7_pad pt 8), GoodBlock c :=
    toChunks_good_fuel (_pkcs7_pad pt 8).length _ (le_refl _) (pad_length_mod pt) hdata
  obtain ⟨cs, henc, hlen, hgood, hdec⟩ :=
    cbcEncrypt_ok (roundKeysAux (_derive_key key) R) (toChunks (_pkcs7_pad pt 8))
      (_derive_iv (_derive_key key)) hchunks hiv hks
  refine ⟨cs, ?_, hlen, hgood, hdec⟩
  simp only [encrypt_message_raw, BLOCK_SIZE]
  rw [generate_round_keys_eq hm16, ok_bind, henc, ok_bind]

lemma decrypt_message_raw_eq (flat key : List Nat) (R : Nat) :
    decrypt_message_raw (_derive_iv (_derive_key key) ++ flat) key R =
      (cbcDecrypt (roundKeysAux (_derive_key key) R)
        (_derive_iv (_derive_key key)) (toChunks flat)) >>=
        fun ps => _pkcs7_unpad ps.flatten 8 := by
  have hm16 := derive_key_length key
  have hivlen : (_derive_iv (_derive_key key)).length = 8 := (derive_iv_good hm16).1
  simp only [decrypt_message_raw, BLOCK_SIZE]
  rw [if_neg (by rw [List.length_append, hivlen]; omega)]
  rw [List.take_left' hivlen, List.drop_left' hivlen,
    generate_round_keys_eq hm16, ok_bind]

lemma message_roundtrip (pt k1 k2 : List Nat) (R : Nat)
    (hpt : allLt256 pt) (hk1 : allLt256 k1)
    (hder : _derive_key k1 = _derive_key k2) :
    ∃ cs : List (List Nat),
      encrypt_message_raw pt k1 R = .ok (_derive_iv (_derive_key k1) ++ cs.flatten) ∧
      allLt256 (_derive_iv (_derive_key k1) ++ cs.flatten) ∧
      (_derive_iv (_derive_key k1) ++ cs.flatten).length = 8 + 8 * cs.length ∧
      1 ≤ cs.length ∧
      decrypt_message_raw (_derive_iv (_derive_key k1) ++ cs.flatten) k2 R = .ok pt := by
  obtain ⟨cs, henc, hlen, hgood, hdec⟩ := encrypt_message_raw_spec pt k1 R hpt hk1
  have hm16 := derive_key_length k1
  have hiv := derive_iv_good hm16
  refine ⟨cs, henc, ?_, ?_, ?_, ?_⟩
  · exact allLt256_append hiv.2 (allLt256_flatten (fun c hc => (hgood c hc).2))
  · rw [List.length_append, hiv.1,
      flatten_length_const cs (fun c hc => (hgood c hc).1)]
  · have hdne : _pkcs7_pad pt 8 ≠ [] := by
      intro hx
      have h0 := congrArg List.length hx
      rw [pad_length] at h0
      simp only [List.length_nil] at h0
      have h1 := padLen_pos pt
      omega
    have h2 := List.length_pos.mpr (toChunks_ne_nil hdne)
    rw [hlen]
    omega
  · rw [hder] at henc hdec ⊢
    rw [decrypt_message_raw_eq cs.flatten k2 R,
      toChunks_flatten cs (fun c hc => (hgood c hc).1), hdec, ok_bind,
      flatten_toChunks, unpad_pad]

/-! Tampering lemmas. -/

lemma getD_set_self {l : List Nat} {n v d : Nat} (h : n < l.length) :
    (l.set n v).getD n d = v := by
  simp [List.getD_eq_getElem?_getD, List.getElem?_set_self', h]

lemma getD_append_right {l l' : List Nat} {n d : Nat} (h : l.length ≤ n) :
    (l ++ l').getD n d = l'.getD (n - l.length) d := by
  simp [List.getD_eq_getElem?_getD, List.getElem?_append_right h]

lemma allLt256_set {l : List Nat} {n v : Nat} (hl : allLt256 l) (hv : v < 256) :
    allLt256 (l.set n v) := by
  intro b hb
  rcases List.mem_or_eq_of_mem_set hb with h | h
  · exact hl b h
  · rw [h]; exact hv

lemma cbcDecrypt_blocks_length (ks : List (List Nat)) :
    ∀ (cs : List (List Nat)) (prev : List Nat) (ps : List (List Nat)),
    (∀ c ∈ cs, GoodBlock c) → prev.length = 8 → (∀ rk ∈ ks, 4 ≤ rk.length) →
    cbcDecrypt ks prev cs = .ok ps → ∀ p ∈ ps, p.length = 8 := by
  intro cs
  induction cs with
  | nil =>
    intro prev ps _ _ _ h p hp
    simp only [cbcDecrypt, Except.ok.injEq] at h
    rw [← h] at hp
    cases hp
  | cons c t ih =>
    intro prev ps hcs hprev hks h p hp
    have hc : GoodBlock c := hcs c (List.mem_cons_self _ _)
    simp only [cbcDecrypt] at h
    cases hd : decrypt_block c ks with
    | error e => rw [hd, error_bind] at h; cases h
    | ok d =>
      rw [hd, ok_bind] at h
      cases hr : cbcDecrypt ks c t with
      | error e => rw [hr, error_bind] at h; cases h
      | ok ts =>
        rw [hr, ok_bind] at h
        injection h with h
        rw [← h] at hp
        have hdg : GoodBlock d := by
          obtain ⟨e, he, heg, _⟩ := decrypt_block_ok hc hks
          rw [hd] at he
          injection he with he
          rw [he]; exact heg
        rcases List.mem_cons.mp hp with hx | hx
        · rw [hx, length_zipXor, hdg.1, hprev]; rfl
        · exact ih c ts (fun q hq => hcs q (List.mem_cons_of_mem _ hq))
            hc.1 hks hr p hx

lemma tamper_raw (pt key raw : List Nat) (R j v : Nat)
    (hpt : allLt256 pt) (hkey : allLt256 key)
    (henc : encrypt_message_raw pt key R = .ok raw)
    (hj8 : 8 ≤ j) (hjlt : j < raw.length) (hv : v < 256)
    (hne : v ≠ raw.getD j 0) :
    decrypt_message_raw (raw.set j v) key R ≠ .ok pt := by
  obtain ⟨cs, henc', hlencs, hgood, hdec⟩ :=
    encrypt_message_raw_spec pt key R hpt hkey
  rw [henc] at henc'
  have hraw := Except.ok.inj henc'
  subst hraw
  have hm16 : (_derive_key key).length = 16 := derive_key_length key
  have hiv : GoodBlock (_derive_iv (_derive_key key)) := derive_iv_good hm16
  have hks : ∀ rk ∈ roundKeysAux (_derive_key key) R, 4 ≤ rk.length := by
    intro rk hrk
    rw [roundKeysAux_length R _ (by omega) rk hrk]
    decide
  have hcs8 : ∀ c ∈ cs, c.length = 8 := fun c hc => (hgood c hc).1
  have hflatlen : cs.flatten.length = 8 * cs.length := flatten_length_const cs hcs8
  have hjlt' : j - 8 < cs.flatten.length := by
    rw [List.length_append, hiv.1] at hjlt
    omega
  have hset : (_derive_iv (_derive_key key) ++ cs.flatten).set j v
      = _derive_iv (_derive_key key) ++ cs.flatten.set (j - 8) v := by
    have hle : (_derive_iv (_derive_key key)).length ≤ j := by rw [hiv.1]; omega
    rw [List.set_append_right _ _ hle, hiv.1]
  have hold : (_derive_iv (_derive_key key) ++ cs.flatten).getD j 0
      = cs.flatten.getD (j - 8) 0 := by
    have hle : (_derive_iv (_derive_key key)).length ≤ j := by rw [hiv.1]; omega
    rw [getD_append_right hle, hiv.1]
  have hflatne : cs.flatten.set (j - 8) v ≠ cs.flatten := by
    intro hx
    apply hne
    rw [hold, ← hx, getD_set_self hjlt']
  rw [hset]
  set flat' := cs.flatten.set (j - 8) v with hflat'
  have hflat'len : flat'.length = 8 * cs.length := by
    rw [hflat', List.length_set, hflatlen]
  have hflat'lt : allLt256 flat' :=
    allLt256_set (allLt256_flatten (fun c hc => (hgood c hc).2)) hv
  have hcs'good : ∀ c ∈ toChunks flat', GoodBlock c :=
    toChunks_good_fuel flat'.length _ (le_refl _) (by omega) hflat'lt
  have hcs'8 : ∀ c ∈ toChunks flat', c.length = 8 := fun c hc => (hcs'good c hc).1
  have hcs'flat : (toChunks flat').flatten = flat' := flatten_toChunks flat'
  have hcs'len : (toChunks flat').length = cs.length := by
    have h1 := flatten_length_const (toChunks flat') hcs'8
    rw [hcs'flat, hflat'len] at h1
    omega
  intro hcontra
  rw [decrypt_message_raw_eq flat' key R] at hcontra
  cases hps : cbcDecrypt (roundKeysAux (_derive_key key) R)
      (_derive_iv (_derive_key key)) (toChunks flat') with
  | error e => rw [hps, error_bind] at hcontra; cases hcontra
  | ok ps =>
    rw [hps, ok_bind] at hcontra
    have hps8 : ∀ p ∈ ps, p.length = 8 :=
      cbcDecrypt_blocks_length _ _ _ _ hcs'good hiv.1 hks hps
    have hpslen : ps.length = (toChunks flat').length :=
      cbcDecrypt_length _ _ _ _ hps
    have hpsflatlen : ps.flatten.length = 8 * cs.length := by
      rw [flatten_length_const ps hps8, hpslen, hcs'len]
    have hpadlen : (_pkcs7_pad pt 8).length = 8 * cs.length := by
      have h1 := flatten_length_const (toChunks (_pkcs7_pad pt 8))
        (fun c hc => (toChunks_good_fuel (_pkcs7_pad pt 8).length _ (le_refl _)
          (pad_length_mod pt) (allLt256_pad hpt) c hc).1)
      rw [flatten_toChunks] at h1
      rw [h1, ← hlencs]
    obtain ⟨p, hp1, hp8, hshape, hplen⟩ := unpad_ok_shape hcontra
    have hpeq : p = padLen pt := by
      have h2 := pad_length pt
      rw [hpsflatlen] at hplen
      rw [hpadlen] at h2
      omega
    have hpsflat : ps.flatten = _pkcs7_pad pt 8 := by
      rw [hshape, hpeq, ← pad_eq]
    have hpstc : ps = toChunks (_pkcs7_pad pt 8) := by
      rw [← hpsflat, toChunks_flatten ps hps8]
    rw [hpstc] at hps
    have hcseq : toChunks flat' = cs :=
      cbcDecrypt_injective _ (toChunks flat') cs _ _ hcs'good hgood hiv hks hps hdec
    apply hflatne
    rw [← hcs'flat, hcseq]

/-! Base64 lemmas. -/

lemma sextetOfChar_sextetChar : ∀ n, n < 64 → sextetOfChar (sextetChar n) = some n := by
  have h : ∀ n, n < 64 → sextetOfChar (sextetChar n) = some n := by decide
  exact h

lemma sextetChar_ne_pad : ∀ n, sextetChar n ≠ '=' := by
  intro n
  have hb : n % 64 < 64 := Nat.mod_lt _ (by decide)
  have h : ∀ m, m < 64 → b64Alphabet.getD m 'A' ≠ '=' := by decide
  unfold sextetChar
  exact h _ hb

lemma b64decode_encode_fuel : ∀ (n : Nat) (l : List Nat), l.length ≤ n →
    allLt256 l → b64decode (b64encode l) = some l := by
  intro n
  induction n with
  | zero =>
    intro l hl _
    have : l = [] := List.length_eq_zero.mp (by omega)
    rw [this]
    rfl
  | succ m ih =>
    intro l hl hlt
    rcases l with _ | ⟨a, _ | ⟨b, _ | ⟨c, rest⟩⟩⟩
    · rfl
    · have ha : a < 256 := hlt a (by simp)
      simp only [b64encode, b64decode]
      rw [sextetOfChar_sextetChar _ (by omega), sextetOfChar_sextetChar _ (by omega)]
      simp only []
      rw [if_pos (by simp)]
      simp only [Option.some.injEq, List.cons.injEq, and_true]
      omega
    · have ha : a < 256 := hlt a (by simp)
      have hb : b < 256 := hlt b (by simp)
      simp only [b64encode, b64decode]
      rw [sextetOfChar_sextetChar _ (by omega), sextetOfChar_sextetChar _ (by omega)]
      simp only []
      rw [if_neg (fun h => sextetChar_ne_pad _ h.1)]
      rw [sextetOfChar_sextetChar _ (by omega)]
      simp only []
      rw [if_pos (by simp)]
      simp only [Option.some.injEq, List.cons.injEq, and_true]
      constructor
      · omega
      · omega
    · have ha : a < 256 := hlt a (by simp)
      have hb : b < 256 := hlt b (by simp)
      have hc : c < 256 := hlt c (by simp)
      have hrest : allLt256 rest := by
        intro q hq
        exact hlt q (by simp [hq])
      simp only [List.length_cons] at hl
      simp only [b64encode, b64decode]
      rw [sextetOfChar_sextetChar _ (by omega), sextetOfChar_sextetChar _ (by omega)]
      simp only []
      rw [if_neg (fun h => sextetChar_ne_pad _ h.1)]
      rw [sextetOfChar_sextetChar _ (by omega)]
      simp only []
      rw [if_neg (fun h => sextetChar_ne_pad _ h.1)]
      rw [sextetOfChar_sextetChar _ (by omega)]
      rw [ih rest (by omega) hrest]
      simp only [Option.some.injEq, List.cons.injEq, and_true]
      refine ⟨by omega, by omega, by omega⟩

lemma b64decode_encode {l : List Nat} (h : allLt256 l) :
    b64decode (b64encode l) = some l :=
  b64decode_encode_fuel l.length l (le_refl _) h

lemma message_codec_roundtrip (pt k1 k2 : List Nat) (R : Nat)
    (hpt : allLt256 pt) (hk1 : allLt256 k1)
    (hder : _derive_key k1 = _derive_key k2) :
    ∃ blob, encrypt_message pt k1 R = .ok blob ∧
      decrypt_message blob k2 R = .ok pt := by
  obtain ⟨cs, henc, hrawlt, _, _, hdec⟩ := message_roundtrip pt k1 k2 R hpt hk1 hder
  refine ⟨b64encode (_derive_iv (_derive_key k1) ++ cs.flatten), ?_, ?_⟩
  · simp only [encrypt_message]
    rw [henc, ok_bind]
  · simp only [decrypt_message]
    rw [b64decode_encode hrawlt]
    exact hdec

/-! Round keys depend only on the first 4 bytes of each entry (for C9). -/

lemma encryptRounds_take4_congr : ∀ (ks ks' : List (List Nat)),
    ks.map (fun k => k.take 4) = ks'.map (fun k => k.take 4) →
    ∀ (l r : List Nat), encryptRounds l r ks = encryptRounds l r ks' := by
  intro ks
  induction ks with
  | nil =>
    intro ks' h l r
    cases ks' with
    | nil => rfl
    | cons k' t' => simp at h
  | cons k t ih =>
    intro ks' h l r
    cases ks' with
    | nil => simp at h
    | cons k' t' =>
      simp only [List.map_cons, List.cons.injEq] at h
      simp only [encryptRounds]
      rw [h.1]
      cases hF : _F r (k'.take 4) with
      | error e => rfl
      | ok f =>
        rw [ok_bind, ok_bind]
        exact ih t' h.2 r (zipXor256 l f)

lemma decryptRounds_take4_congr : ∀ (ks ks' : List (List Nat)),
    ks.map (fun k => k.take 4) = ks'.map (fun k => k.take 4) →
    ∀ (l r : List Nat), decryptRounds l r ks = decryptRounds l r ks' := by
  intro ks
  induction ks with
  | nil =>
    intro ks' h l r
    cases ks' with
    | nil => rfl
    | cons k' t' => simp at h
  | cons k t ih =>
    intro ks' h l r
    cases ks' with
    | nil => simp at h
    | cons k' t' =>
      simp only [List.map_cons, List.cons.injEq] at h
      simp only [decryptRounds]
      rw [h.1]
      cases hF : _F l (k'.take 4) with
      | error e => rfl
      | ok f =>
        rw [ok_bind, ok_bind]
        exact ih t' h.2 (zipXor256 r f) l

lemma encrypt_block_take4_congr (block : List Nat) (ks ks' : List (List Nat))
    (h : ks.map (fun k => k.take 4) = ks'.map (fun k => k.take 4)) :
    encrypt_block block ks = encrypt_block block ks' := by
  unfold encrypt_block
  by_cases hb : block.length ≠ BLOCK_SIZE
  · rw [if_pos hb, if_pos hb]
  · rw [if_neg hb, if_neg hb]
    simp only [encryptRounds_take4_congr ks ks' h]

lemma decrypt_block_take4_congr (block : List Nat) (ks ks' : List (List Nat))
    (h : ks.map (fun k => k.take 4) = ks'.map (fun k => k.take 4)) :
    decrypt_block block ks = decrypt_block block ks' := by
  have hrev : ks.reverse.map (fun k => k.take 4)
      = ks'.reverse.map (fun k => k.take 4) := by
    rw [List.map_reverse, List.map_reverse, h]
  unfold decrypt_block
  by_cases hb : block.length ≠ BLOCK_SIZE
  · rw [if_pos hb, if_pos hb]
  · rw [if_neg hb, if_neg hb]
    simp only [decryptRounds_take4_congr ks.reverse ks'.reverse hrev]

/-! Key-schedule periodicity lemmas (for C10). -/

lemma rot6_lt (b : Nat) : _rotate_byte_left6 b < 256 := by
  have h : ∀ c, c < 256 → ((c <<< 6) % 256 ||| c >>> 2) < 256 := by decide
  unfold _rotate_byte_left6
  exact h _ (mod256_lt b)

lemma rot6_four (b : Nat) (h : b < 256) :
    _rotate_byte_left6 (_rotate_byte_left6 (_rotate_byte_left6
      (_rotate_byte_left6 b))) = b := by
  have hd : ∀ c, c < 256 →
      _rotate_byte_left6 (_rotate_byte_left6 (_rotate_byte_left6
        (_rotate_byte_left6 c))) = c := by decide
  exact hd b h

lemma allLt256_map_rot6 (s : List Nat) : allLt256 (s.map _rotate_byte_left6) := by
  intro b hb
  obtain ⟨a, _, rfl⟩ := List.mem_map.mp hb
  exact rot6_lt a

lemma state_four {s : List Nat} (hs : allLt256 s) :
    (List.map _rotate_byte_left6)^[4] s = s := by
  show List.map _ (List.map _ (List.map _ (List.map _ s))) = s
  rw [List.map_map, List.map_map, List.map_map]
  have h4 : ∀ a ∈ s, (((_rotate_byte_left6 ∘ _rotate_byte_left6) ∘ _rotate_byte_left6)
      ∘ _rotate_byte_left6) a = a := by
    intro a ha
    exact rot6_four a (hs a ha)
  rw [List.map_congr_left h4]
  simp

lemma state_iter_lt {s : List Nat} (hs : allLt256 s) (i : Nat) :
    allLt256 ((List.map _rotate_byte_left6)^[i] s) := by
  induction i with
  | zero => exact hs
  | succ n ih =>
    rw [Function.iterate_succ_apply']
    exact allLt256_map_rot6 _

lemma state_period {s : List Nat} (hs : allLt256 s) (i : Nat) :
    (List.map _rotate_byte_left6)^[i + 4] s = (List.map _rotate_byte_left6)^[i] s := by
  rw [Function.iterate_add_apply, state_four hs]

lemma roundKeysAux_getElem? : ∀ (R i : Nat) (s : List Nat), i < R →
    (roundKeysAux s R)[i]? = some (((List.map _rotate_byte_left6)^[i] s).take 8) := by
  intro R
  induction R with
  | zero => intro i s hi; omega
  | succ m ih =>
    intro i s hi
    cases i with
    | zero => simp [roundKeysAux]
    | succ n =>
      simp only [roundKeysAux, List.getElem?_cons_succ]
      rw [ih n _ (by omega), Function.iterate_succ_apply]

lemma state_period_mult {s : List Nat} (hs : allLt256 s) :
    ∀ (q r : Nat), (List.map _rotate_byte_left6)^[r + 4 * q] s
      = (List.map _rotate_byte_left6)^[r] s := by
  intro q
  induction q with
  | zero => intro r; rfl
  | succ p ih =>
    intro r
    have : r + 4 * (p + 1) = (r + 4 * p) + 4 := by ring
    rw [this, state_period hs, ih]

/-! The claims. -/

/-- C1: for every 8-byte block `B` and every round-key schedule produced by
`_generate_round_keys` from a 16-byte key, with any round count,
`encrypt_block` succeeds and `decrypt_block` maps its output back to `B`. -/
theorem c1_block_roundtrip (key B : List Nat) (rounds : Nat) (ks : List (List Nat))
    (hkey : key.length = 16) (hB : B.length = 8) (hBlt : allLt256 B)
    (hks : _generate_round_keys key rounds = .ok ks) :
    ∃ c, encrypt_block B ks = .ok c ∧ decrypt_block c ks = .ok B := by
  rw [generate_round_keys_eq hkey] at hks
  have hkeq := Except.ok.inj hks
  subst hkeq
  have hks4 : ∀ rk ∈ roundKeysAux key rounds, 4 ≤ rk.length := by
    intro rk hrk
    rw [roundKeysAux_length rounds key (by omega) rk hrk]
    decide
  obtain ⟨c, henc, _, hdec⟩ := encrypt_block_ok ⟨hB, hBlt⟩ hks4
  exact ⟨c, henc, hdec⟩

/-- Witness for C1 at a concrete key, block and round count. -/
theorem c1_block_roundtrip_witness :
    ∃ c, encrypt_block [1, 2, 3, 4, 5, 6, 7, 8]
        (roundKeysAux (List.replicate 16 0) 10) = .ok c ∧
      decrypt_block c (roundKeysAux (List.replicate 16 0) 10)
        = .ok [1, 2, 3, 4, 5, 6, 7, 8] :=
  c1_block_roundtrip (List.replicate 16 0) [1, 2, 3, 4, 5, 6, 7, 8] 10 _
    (by decide) (by decide) (by decide) rfl

/-- C2: for every UTF-8 string `S` (represented by its byte sequence) and
every non-empty passphrase `K`, `encrypt_message` succeeds and
`decrypt_message` returns `S` with the same passphrase, at the default round
count. -/
theorem c2_message_roundtrip (S K : List Nat) (hS : allLt256 S)
    (hK : allLt256 K) (hne : K ≠ []) :
    ∃ blob, encrypt_message S K ROUNDS = .ok blob ∧
      decrypt_message blob K ROUNDS = .ok S :=
  message_codec_roundtrip S K K ROUNDS hS hK rfl

/-- Witness for C2 at a concrete string and passphrase. -/
theorem c2_message_roundtrip_witness :
    ∃ blob, encrypt_message [72] [107] ROUNDS = .ok blob ∧
      decrypt_message blob [107] ROUNDS = .ok [72] :=
  c2_message_roundtrip [72] [107] (by decide) (by decide) (by decide)

/-- C3 fails on the code: the distinct passphrases "k" (bytes `[107]`) and
"k\x00" (bytes `[107, 0]`) zero-pad to the same derived 16-byte key, so
decrypting with the second passphrase returns the plaintext encrypted under
the first. -/
theorem c3_counterexample :
    ([107] : List Nat) ≠ [107, 0] ∧
    encrypt_message [65] [107] ROUNDS = .ok "zqWlpaWlpaVYRLgU2Lejtg==".toList ∧
    decrypt_message "zqWlpaWlpaVYRLgU2Lejtg==".toList [107, 0] ROUNDS
      = .ok [65] :=
  ⟨by decide, by decide, by decide⟩

/-- C3 amended: decryption depends on the passphrase only through the derived
16-byte key, so whenever `K1` and `K2` derive the same key — which happens
for some pairs `K1 ≠ K2` — `decrypt_message (encrypt_message S K1) K2`
returns `S`; the claimed non-return property therefore cannot hold for all
distinct passphrase pairs, only (heuristically) for pairs with distinct
derived keys. -/
theorem c3_amended_derived_key (S K1 K2 : List Nat) (hS : allLt256 S)
    (hK1 : allLt256 K1) (hder : _derive_key K1 = _derive_key K2) :
    ∃ blob, encrypt_message S K1 ROUNDS = .ok blob ∧
      decrypt_message blob K2 ROUNDS = .ok S :=
  message_codec_roundtrip S K1 K2 ROUNDS hS hK1 hder

/-- Witness for the amended C3 at the concrete colliding passphrases. -/
theorem c3_amended_witness :
    ∃ blob, encrypt_message [65] [107] ROUNDS = .ok blob ∧
      decrypt_message blob [107, 0] ROUNDS = .ok [65] :=
  c3_amended_derived_key [65] [107] [107, 0] (by decide) (by decide) (by decide)

/-- C4: given the decoded envelope `raw` produced by `encrypt_message` for
plaintext `pt`, overwriting any single byte at a position `j ≥ 8` (the
ciphertext portion, not the IV) with a different byte value makes
`decrypt_message` either fail or return something different from `pt` —
it never returns the original plaintext. -/
theorem c4_tamper_detection (pt key raw : List Nat) (j v : Nat)
    (hpt : allLt256 pt) (hkey : allLt256 key)
    (henc : encrypt_message_raw pt key ROUNDS = .ok raw)
    (hj : 8 ≤ j) (hjlt : j < raw.length) (hv : v < 256)
    (hne : v ≠ raw.getD j 0) :
    decrypt_message_raw (raw.set j v) key ROUNDS ≠ .ok pt :=
  tamper_raw pt key raw ROUNDS j v hpt hkey henc hj hjlt hv hne

/-- Witness for C4 at a concrete envelope and tampering position. -/
theorem c4_tamper_detection_witness :
    decrypt_message_raw
      (([206, 165, 165, 165, 165, 165, 165, 165, 88, 68, 184, 20, 216, 183,
        163, 182] : List Nat).set 8 255) [107] ROUNDS ≠ .ok [65] :=
  c4_tamper_detection [65] [107]
    [206, 165, 165, 165, 165, 165, 165, 165, 88, 68, 184, 20, 216, 183, 163, 182]
    8 255 (by decide) (by decide) (by decide) (by decide) (by decide) (by decide)
    (by decide)

/-- C5 fails on the code: `_F` rejects a 5-byte half-block even though both
inputs have length ≥ 4 (the code demands the half-block be exactly 4 bytes),
refuting "fails exactly when an input is shorter than 4 bytes". -/
theorem c5_counterexample :
    4 ≤ ([0, 0, 0, 0, 0] : List Nat).length ∧
    4 ≤ ([0, 0, 0, 0] : List Nat).length ∧
    _F [0, 0, 0, 0, 0] [0, 0, 0, 0] = .error .invalidBlockLength :=
  ⟨by decide, by decide, rfl⟩

/-- C5 amended: `_F` succeeds, returning 4 bytes, exactly when the half-block
is exactly 4 bytes long and the subkey is at least 4 bytes long; in every
other case (including half-blocks longer than 4 bytes) it raises an error. -/
theorem c5_amended_F_domain (right rk : List Nat) :
    (∃ out, _F right rk = .ok out ∧ out.length = 4) ↔
      (right.length = 4 ∧ 4 ≤ rk.length) := by
  constructor
  · rintro ⟨out, hout, _⟩
    by_cases h1 : right.length = 4
    · refine ⟨h1, ?_⟩
      by_cases h2 : 4 ≤ rk.length
      · exact h2
      · exfalso
        unfold _F at hout
        rw [if_neg (by omega), if_pos (by omega)] at hout
        cases hout
    · exfalso
      unfold _F at hout
      rw [if_pos (by omega)] at hout
      cases hout
  · rintro ⟨h1, h2⟩
    obtain ⟨out, hout, hlen, _⟩ := F_ok h1 h2
    exact ⟨out, hout, hlen⟩

/-- C6: on indices with nonzero `_EXP` value the table is injective,
`_LOG[_EXP[i]] = i` holds there, and `_LOG[0] = 128`. -/
theorem c6_table_bijection :
    (∀ i, i < 256 → ∀ j, j < 256 → _EXP.getD i 0 ≠ 0 → _EXP.getD j 0 ≠ 0 →
      _EXP.getD i 0 = _EXP.getD j 0 → i = j) ∧
    (∀ i, i < 256 → _EXP.getD i 0 ≠ 0 → _LOG.getD (_EXP.getD i 0) 0 = i) ∧
    _LOG.getD 0 0 = 128 := by
  have hlog : ∀ i, i < 256 → _EXP.getD i 0 ≠ 0 →
      _LOG.getD (_EXP.getD i 0) 0 = i := by decide
  refine ⟨?_, hlog, by decide⟩
  intro i hi j hj hiz hjz heq
  have h1 := hlog i hi hiz
  have h2 := hlog j hj hjz
  rw [heq] at h1
  exact h1.symm.trans h2

/-- Witness for C6 at the concrete index 1. -/
theorem c6_table_bijection_witness :
    (1 : Nat) < 256 ∧ _EXP.getD 1 0 ≠ 0 ∧ _LOG.getD (_EXP.getD 1 0) 0 = 1 :=
  ⟨by decide, by decide, c6_table_bijection.2.1 1 (by decide) (by decide)⟩

/-- C7: for every byte sequence `d`, the output of `_pkcs7_pad` at block size
8 has length a positive multiple of 8 strictly greater than `d.length`, and
consists of `d` followed by `padLen d` copies of the byte `padLen d` with
`1 ≤ padLen d ≤ 8` — padding is never zero-length. -/
theorem c7_padding (d : List Nat) :
    (_pkcs7_pad d 8).length % 8 = 0 ∧
    0 < (_pkcs7_pad d 8).length ∧
    d.length < (_pkcs7_pad d 8).length ∧
    _pkcs7_pad d 8 = d ++ List.replicate (padLen d) (padLen d) ∧
    1 ≤ padLen d ∧ padLen d ≤ 8 := by
  have h1 := pad_length_mod d
  have h2 := pad_length d
  have h3 := padLen_pos d
  have h4 := padLen_le d
  exact ⟨h1, by omega, by omega, pad_eq d, h3, h4⟩

/-- C8: every envelope `encrypt_message` produces decodes to `8 + 8k` bytes
with `k ≥ 1`; concretely, passphrase "test_key_128" and plaintext "HELLO"
produce an envelope decoding to exactly 16 bytes which decrypts back to
"HELLO". -/
theorem c8_envelope (pt key : List Nat) (hpt : allLt256 pt)
    (hkey : allLt256 key) :
    (∃ blob raw k, encrypt_message pt key ROUNDS = .ok blob ∧
      b64decode blob = some raw ∧ 1 ≤ k ∧ raw.length = 8 + 8 * k) ∧
    (encrypt_message [72, 69, 76, 76, 79]
        [116, 101, 115, 116, 95, 107, 101, 121, 95, 49, 50, 56] ROUNDS
        = .ok "0cDW0frOwNzR6h0P0/+sTw==".toList ∧
      b64decode "0cDW0frOwNzR6h0P0/+sTw==".toList
        = some [209, 192, 214, 209, 250, 206, 192, 220, 209, 234, 29, 15,
          211, 255, 172, 79] ∧
      ([209, 192, 214, 209, 250, 206, 192, 220, 209, 234, 29, 15, 211, 255,
        172, 79] : List Nat).length = 16 ∧
      decrypt_message "0cDW0frOwNzR6h0P0/+sTw==".toList
        [116, 101, 115, 116, 95, 107, 101, 121, 95, 49, 50, 56] ROUNDS
        = .ok [72, 69, 76, 76, 79]) := by
  constructor
  · obtain ⟨cs, henc, hlt, hlen, hk1, _⟩ :=
      message_roundtrip pt key key ROUNDS hpt hkey rfl
    refine ⟨_, _, cs.length, ?_, b64decode_encode hlt, hk1, hlen⟩
    simp only [encrypt_message]
    rw [henc, ok_bind]
  · exact ⟨by decide, by decide, by decide, by decide⟩

/-- Witness for C8 at a concrete plaintext and passphrase. -/
theorem c8_envelope_witness :
    (∃ blob raw k, encrypt_message [65] [107] ROUNDS = .ok blob ∧
      b64decode blob = some raw ∧ 1 ≤ k ∧ raw.length = 8 + 8 * k) ∧
    (encrypt_message [72, 69, 76, 76, 79]
        [116, 101, 115, 116, 95, 107, 101, 121, 95, 49, 50, 56] ROUNDS
        = .ok "0cDW0frOwNzR6h0P0/+sTw==".toList ∧
      b64decode "0cDW0frOwNzR6h0P0/+sTw==".toList
        = some [209, 192, 214, 209, 250, 206, 192, 220, 209, 234, 29, 15,
          211, 255, 172, 79] ∧
      ([209, 192, 214, 209, 250, 206, 192, 220, 209, 234, 29, 15, 211, 255,
        172, 79] : List Nat).length = 16 ∧
      decrypt_message "0cDW0frOwNzR6h0P0/+sTw==".toList
        [116, 101, 115, 116, 95, 107, 101, 121, 95, 49, 50, 56] ROUNDS
        = .ok [72, 69, 76, 76, 79]) :=
  c8_envelope [65] [107] (by decide) (by decide)

/-- C9: `encrypt_block` and `decrypt_block` depend only on the first 4 bytes
of each round key: schedules whose entries agree on their first 4 bytes
produce identical outputs on every 8-byte block. -/
theorem c9_first_four_bytes (block : List Nat) (ks ks' : List (List Nat))
    (hb : block.length = 8) (hk4 : ∀ rk ∈ ks, 4 ≤ rk.length)
    (hmap : ks.map (fun k => k.take 4) = ks'.map (fun k => k.take 4)) :
    encrypt_block block ks = encrypt_block block ks' ∧
    decrypt_block block ks = decrypt_block block ks' :=
  ⟨encrypt_block_take4_congr block ks ks' hmap,
   decrypt_block_take4_congr block ks ks' hmap⟩

/-- Witness for C9 at concrete schedules agreeing on their first 4 bytes. -/
theorem c9_first_four_bytes_witness :
    encrypt_block [1, 2, 3, 4, 5, 6, 7, 8] [[1, 2, 3, 4, 9]]
      = encrypt_block [1, 2, 3, 4, 5, 6, 7, 8] [[1, 2, 3, 4, 7, 7]] ∧
    decrypt_block [1, 2, 3, 4, 5, 6, 7, 8] [[1, 2, 3, 4, 9]]
      = decrypt_block [1, 2, 3, 4, 5, 6, 7, 8] [[1, 2, 3, 4, 7, 7]] :=
  c9_first_four_bytes [1, 2, 3, 4, 5, 6, 7, 8] [[1, 2, 3, 4, 9]]
    [[1, 2, 3, 4, 7, 7]] (by decide) (by decide) (by decide)

/-- C10: for every 16-byte master key, the round-key schedule is periodic
with period 4 (`keys[i+4] = keys[i]` for all valid `i`, since rotating a
byte left by 6 bits four times is the identity), and the default 10-round
schedule contains at most 4 distinct subkeys. -/
theorem c10_schedule_period (master : List Nat) (hm : master.length = 16)
    (hmb : allLt256 master) :
    (∀ R i ks, _generate_round_keys master R = .ok ks → i + 4 < R →
      ks[i + 4]? = ks[i]?) ∧
    (∀ ks, _generate_round_keys master 10 = .ok ks →
      ks.toFinset.card ≤ 4) := by
  constructor
  · intro R i ks hks hi
    rw [generate_round_keys_eq hm] at hks
    have hkeq := Except.ok.inj hks
    rw [← hkeq]
    rw [roundKeysAux_getElem? R (i + 4) master hi,
      roundKeysAux_getElem? R i master (by omega), state_period hmb]
  · intro ks hks
    rw [generate_round_keys_eq hm] at hks
    have hkeq := Except.ok.inj hks
    rw [← hkeq]
    have hmem : ∀ x ∈ roundKeysAux master 10,
        x ∈ (roundKeysAux master 10).take 4 := by
      intro x hx
      obtain ⟨n, hn⟩ := List.mem_iff_getElem?.mp hx
      have hn10 : n < 10 := by
        by_contra hge
        rw [List.getElem?_eq_none (by
          have hlen : (roundKeysAux master 10).length ≤ 10 := by
            have : ∀ (R : Nat) (s : List Nat), (roundKeysAux s R).length = R := by
              intro R
              induction R with
              | zero => intro s; rfl
              | succ m ih => intro s; simp [roundKeysAux, ih]
            rw [this 10 master]
          omega)] at hn
        cases hn
      have hrep : (roundKeysAux master 10)[n]?
          = (roundKeysAux master 10)[n % 4]? := by
        have hsplit : n = n % 4 + 4 * (n / 4) := by omega
        have hper := state_period_mult hmb (n / 4) (n % 4)
        rw [← hsplit] at hper
        rw [roundKeysAux_getElem? 10 n master hn10,
          roundKeysAux_getElem? 10 (n % 4) master (by omega), hper]
      apply List.mem_iff_getElem?.mpr
      refine ⟨n % 4, ?_⟩
      rw [List.getElem?_take, if_pos (show n % 4 < 4 by omega), ← hrep, hn]
    have hsub : (roundKeysAux master 10).toFinset
        ⊆ ((roundKeysAux master 10).take 4).toFinset := by
      intro x hx
      exact List.mem_toFinset.mpr (hmem x (List.mem_toFinset.mp hx))
    calc (roundKeysAux master 10).toFinset.card
        ≤ ((roundKeysAux master 10).take 4).toFinset.card :=
          Finset.card_le_card hsub
      _ ≤ ((roundKeysAux master 10).take 4).length := List.toFinset_card_le _
      _ ≤ 4 := by rw [List.length_take]; omega

/-- Witness for C10 at a concrete 16-byte master key. -/
theorem c10_schedule_period_witness :
    (roundKeysAux (List.range 16) 10)[0 + 4]?
      = (roundKeysAux (List.range 16) 10)[0]? ∧
    (roundKeysAux (List.range 16) 10).toFinset.card ≤ 4 :=
  ⟨(c10_schedule_period (List.range 16) (by decide) (by decide)).1 10 0 _
      rfl (by decide),
   (c10_schedule_period (List.range 16) (by decide) (by decide)).2 _ rfl⟩

end Safer
